import Mathlib

/-!
Verification of `sentry/utils/meta.py`: a shallow embedding of the `Meta`
path-cursor over an annotation tree, together with the reader helpers
`get_valid` and `get_all_valid`.

Python values are modelled by the inductive `Value` (mappings as ordered
association lists, mirroring insertion-ordered Python dicts).  Operations
that can raise in Python (attribute or type errors on non-mapping nodes)
are modelled in `Except Unit`; `Except.error ()` marks a raised exception.
Mutation of the shared annotation tree is modelled by explicit state
passing: every mutating operation returns the updated tree.
-/

/-- A path segment or mapping key: either a text key or an integer index. -/
inductive PKey where
  | s (k : String)
  | i (n : Int)
deriving DecidableEq

/-- A Python value: `None`, booleans, integers, text, sequences and mappings. -/
inductive Value where
  | null
  | bool (b : Bool)
  | int (n : Int)
  | str (s : String)
  | list (elems : List Value)
  | dict (kvs : List (PKey × Value))

/-- Whether a value is Python `None` (the test `x is None`). -/
def Value.isNull : Value → Bool
  | .null => true
  | _ => false

/-- Python truthiness of a value. -/
def Value.truthy : Value → Bool
  | .null => false
  | .bool b => b
  | .int n => n != 0
  | .str s => !s.isEmpty
  | .list xs => !xs.isEmpty
  | .dict kvs => !kvs.isEmpty

/-- First-match lookup in an association list (Python dict read). -/
def lookupPK : List (PKey × Value) → PKey → Option Value
  | [], _ => none
  | (k, v) :: rest, key => if k = key then some v else lookupPK rest key

/-- Python dict assignment: replace the value of an existing key in place,
otherwise append the pair at the end (insertion order). -/
def setPK : List (PKey × Value) → PKey → Value → List (PKey × Value)
  | [], key, v => [(key, v)]
  | (k, w) :: rest, key, v =>
      if k = key then (key, v) :: rest else (k, w) :: setPK rest key v

/-- Models the Python expression `x.get(key)`: returns the stored value, or
`None` when the key is absent, on a mapping; raises (AttributeError) when
`x` is not a mapping. -/
def pyDictGet : Value → PKey → Except Unit Value
  | .dict kvs, key => .ok ((lookupPK kvs key).getD .null)
  | _, _ => .error ()

/-- Models Python `+` as used for `err + other[...]`: sequence and text
concatenation and integer addition succeed, any other combination raises. -/
def pyAdd : Value → Value → Except Unit Value
  | .list xs, .list ys => .ok (.list (xs ++ ys))
  | .str a, .str b => .ok (.str (a ++ b))
  | .int a, .int b => .ok (.int (a + b))
  | _, _ => .error ()

/-- Models Python `dst.update(src)` for mapping arguments: every key of
`src` is assigned into `dst` in order; raises when either side is not a
mapping. -/
def pyUpdate : Value → Value → Except Unit Value
  | .dict d, .dict o => .ok (.dict (o.foldl (fun acc kv => setPK acc kv.1 kv.2) d))
  | _, _ => .error ()

/-- Models `six.text_type` on a path key: text keys are unchanged, integer
indices are rendered in decimal (so `-1` becomes `"-1"`). -/
def pkeyStr : PKey → String
  | .s k => k
  | .i n => toString n

/-- Textual representation of a mapping key nested inside a container. -/
def pkeyRepr : PKey → String
  | .s k => "\x27" ++ k ++ "\x27"
  | .i n => toString n

mutual

/-- Models `six.text_type(x)` (Python textual conversion).  Exact for the
scalar values the module converts (`None`, booleans, integers, text); for
containers it renders elements recursively in the style of the Python
representation. -/
def pyText : Value → String
  | .null => "None"
  | .bool true => "True"
  | .bool false => "False"
  | .int n => toString n
  | .str s => s
  | .list xs => "[" ++ pyReprSeq xs ++ "]"
  | .dict kvs => "\x7b" ++ pyReprMap kvs ++ "\x7d"

/-- Textual representation of a value nested inside a container. -/
def pyRepr : Value → String
  | .null => "None"
  | .bool true => "True"
  | .bool false => "False"
  | .int n => toString n
  | .str s => "\x27" ++ s ++ "\x27"
  | .list xs => "[" ++ pyReprSeq xs ++ "]"
  | .dict kvs => "\x7b" ++ pyReprMap kvs ++ "\x7d"

/-- Comma-separated representations of sequence elements. -/
def pyReprSeq : List Value → String
  | [] => ""
  | [x] => pyRepr x
  | x :: y :: rest => pyRepr x ++ ", " ++ pyReprSeq (y :: rest)

/-- Comma-separated representations of mapping items. -/
def pyReprMap : List (PKey × Value) → String
  | [] => ""
  | [kv] => pkeyRepr kv.1 ++ ": " ++ pyRepr kv.2
  | kv :: kv2 :: rest =>
      pkeyRepr kv.1 ++ ": " ++ pyRepr kv.2 ++ ", " ++ pyReprMap (kv2 :: rest)

end

/-- The `Meta` cursor: a reference to an annotation tree plus the owned
path of string segments (fields `_meta` and `_path` in the source). -/
structure Meta where
  tree : Value
  path : List String

/-- `Meta.enter` for a single key: returns a new cursor with the key
appended to the path after textual coercion; the tree is untouched. -/
def Meta.enter1 (m : Meta) (key : PKey) : Meta :=
  ⟨m.tree, m.path ++ [pkeyStr key]⟩

/-- `Meta.enter(*path)`: appends all keys, textually coerced, to the path. -/
def Meta.enter (m : Meta) (keys : List PKey) : Meta :=
  ⟨m.tree, m.path ++ keys.map pkeyStr⟩

/-- The traversal loop of `Meta.raw`: `meta = meta.get(key) or {}` for each
path segment, so a falsy child is replaced by an empty mapping; calling
`.get` on a truthy non-mapping raises. -/
def rawGo : Value → List String → Except Unit Value
  | node, [] => .ok node
  | node, key :: rest => do
      let child ← pyDictGet node (.s key)
      rawGo (if child.truthy then child else .dict []) rest

/-- `Meta.raw()`: the raw annotation sub-tree at the current path. -/
def Meta.raw (m : Meta) : Except Unit Value :=
  rawGo m.tree m.path

/-- `Meta.get()`: the entry of the current node, read from the raw node
under the empty-string key, with a falsy result coerced to an empty
mapping. -/
def Meta.get (m : Meta) : Except Unit Value := do
  let node ← m.raw
  let entry ← pyDictGet node (.s "")
  pure (if entry.truthy then entry else .dict [])

/-- `Meta.get_errors()`: the value under the key `err` of the entry, with
a falsy result coerced to an empty sequence. -/
def Meta.get_errors (m : Meta) : Except Unit Value := do
  let entry ← m.get
  let errs ← pyDictGet entry (.s "err")
  pure (if errs.truthy then errs else .list [])

/-- The loop of `Meta.create()` over the path extended with the trailing
empty-string segment: a missing or `None` child is replaced by a fresh
empty mapping before descending.
Returns the updated sub-tree together with the entry found at the end of
the walk; raises when a traversed node is not a mapping. -/
def createGo : Value → List String → Except Unit (Value × Value)
  | node, [] => .ok (node, node)
  | .dict kvs, key :: rest => do
      let child :=
        match lookupPK kvs (.s key) with
        | none => Value.dict []
        | some .null => Value.dict []
        | some v => v
      let (child2, entry) ← createGo child rest
      pure (.dict (setPK kvs (.s key) child2), entry)
  | _, _ :: _ => .error ()

/-- `Meta.create()`: materializes the entry at the current path, returning
the cursor over the updated tree together with the entry. -/
def Meta.create (m : Meta) : Except Unit (Meta × Value) :=
  (createGo m.tree (m.path ++ [""])).map fun p => (⟨p.1, m.path⟩, p.2)

/-- Writes an entry back at the end of a path whose nodes were just
materialized by `createGo`; this models the in-place mutation performed in
Python through the aliased mapping that `create()` returns. -/
def setEntryGo : Value → List String → Value → Value
  | _, [], entry => entry
  | .dict kvs, key :: rest, entry =>
      .dict (setPK kvs (.s key)
        (setEntryGo ((lookupPK kvs (.s key)).getD (.dict [])) rest entry))
  | node, _ :: _, _ => node

/-- `Meta.merge(other)`: reads the entry of `other`; when falsy, mutates
nothing and returns `None`.  Otherwise materializes the current entry,
reads its previous `err` value, overlays all keys of the other entry onto
it, and, when both `err` values are truthy, replaces the overlaid `err`
with their Python sum (previous errors first).  Returns the updated cursor
together with the merged entry. -/
def Meta.merge (self other : Meta) : Except Unit (Meta × Value) := do
  let o ← other.get
  if o.truthy then do
    let (m1, entry) ← self.create
    let err ← pyDictGet entry (.s "err")
    let updated ← pyUpdate entry o
    let oerr ← pyDictGet o (.s "err")
    let final ←
      if err.truthy && oerr.truthy then do
        let sum ← pyAdd err oerr
        pure (match updated with
              | .dict kvs => Value.dict (setPK kvs (.s "err") sum)
              | v => v)
      else pure updated
    pure (⟨setEntryGo m1.tree (self.path ++ [""]) final, self.path⟩, final)
  else pure (self, .null)

/-- `Meta.add_error(error, value)`: materializes the current entry, makes
sure its `err` value is a sequence (a fresh one when absent or `None`;
appending to a truthy non-sequence raises), appends the textual form of
`error`, and stores `value` under `val` only when `value` is not `None`. -/
def Meta.add_error (self : Meta) (error : Value) (value : Value) : Except Unit Meta := do
  let (m1, entry) ← self.create
  match entry with
  | .dict kvs =>
      let kvs1 :=
        match lookupPK kvs (.s "err") with
        | none => setPK kvs (.s "err") (.list [])
        | some .null => setPK kvs (.s "err") (.list [])
        | some _ => kvs
      match lookupPK kvs1 (.s "err") with
      | some (.list es) =>
          let kvs2 := setPK kvs1 (.s "err") (.list (es ++ [.str (pyText error)]))
          let kvs3 :=
            if value.isNull then kvs2 else setPK kvs2 (.s "val") value
          pure ⟨setEntryGo m1.tree (self.path ++ [""]) (.dict kvs3), self.path⟩
      | _ => .error ()
  | _ => .error ()

/-- The index normalization step of `get_valid`: when the current data is a
sequence and the key is a negative integer, replace it by
`len(data) + key`; any other combination is unchanged (in Python 2 a text
key always compares greater-or-equal to `0`). -/
def normKey (data : Value) (key : PKey) : PKey :=
  match data, key with
  | .list xs, .i n => if n < 0 then .i ((xs.length : Int) + n) else .i n
  | _, k => k

/-- One descent step of `get_valid` into the primary data, after index
normalization: a mapping is read when the key is present, a sequence is
indexed when the integer key is in range, anything else fails. -/
def dataStep (data : Value) (key : PKey) : Option Value :=
  match data with
  | .dict kvs => lookupPK kvs key
  | .list xs =>
      match key with
      | .i n => if 0 ≤ n ∧ n < (xs.length : Int) then xs[n.toNat]? else none
      | .s _ => none
  | _ => none

/-- The loop of `get_valid`: for each segment, normalize the key, advance
the cursor, fail with `(None, root.enter(*path))` when the advanced cursor
has truthy recorded errors or when the data does not descend, otherwise
continue with the child data.  The pair returned is the `with_meta` shape;
the plain return value of the source is always its first component. -/
def getValidLoop (root : Meta) (orig : List PKey) :
    Value → Meta → List PKey → Except Unit (Value × Meta)
  | data, meta, [] => .ok (data, meta)
  | data, meta, k :: rest => do
      let key := normKey data k
      let meta1 := meta.enter1 key
      let errs ← meta1.get_errors
      if errs.truthy then pure (.null, root.enter orig)
      else
        match dataStep data key with
        | some child => getValidLoop root orig child meta1 rest
        | none => pure (.null, root.enter orig)

/-- The starting-cursor selection shared by `get_valid` and
`get_all_valid`: a supplied cursor wins; otherwise a mapping contributes
its `_meta` entry (with `None` collapsing to an empty tree, as in the
`Meta` constructor), and any other data yields an empty tree. -/
def rootMeta (data : Value) (m : Option Meta) : Meta :=
  match m with
  | some meta => meta
  | none =>
      match data with
      | .dict kvs =>
          ⟨match lookupPK kvs (.s "_meta") with
            | none => .dict []
            | some .null => .dict []
            | some v => v, []⟩
      | _ => ⟨.dict [], []⟩

/-- `get_valid(data, *path, meta=m, with_meta=True)`. -/
def get_valid_wm (data : Value) (path : List PKey) (m : Option Meta) :
    Except Unit (Value × Meta) :=
  let root := rootMeta data m
  getValidLoop root path data root path

/-- `get_valid(data, *path, meta=m)` without `with_meta`: the source
returns exactly the value component of the `with_meta` pair. -/
def get_valid (data : Value) (path : List PKey) (m : Option Meta) :
    Except Unit Value :=
  (get_valid_wm data path m).map Prod.fst

/-- Return shape of `get_all_valid`: either the unfiltered resolved value
with its cursor (when the value is falsy or not a sequence), or the list
of kept items, each paired with its per-index cursor. -/
inductive AllValid where
  | pass (v : Value) (m : Meta)
  | items (xs : List (Value × Meta))

/-- The filtering loop of `get_all_valid` over the resolved sequence,
starting at a given index: a `None` item is skipped without touching any
tree node; otherwise the per-index errors are read (possibly raising) and
the item is kept only when they are falsy. -/
def allValidGo (meta : Meta) : Nat → List Value → Except Unit (List (Value × Meta))
  | _, [] => .ok []
  | i, x :: rest => do
      let im := meta.enter1 (.i (i : Int))
      if x.isNull then allValidGo meta (i + 1) rest
      else do
        let errs ← im.get_errors
        let tail ← allValidGo meta (i + 1) rest
        if errs.truthy then pure tail else pure ((x, im) :: tail)

/-- `get_all_valid(data, *path, meta=m)` (the `with_meta=True` shape; the
plain shape drops the cursors).  Resolves via `get_valid` with meta, passes
the value through unchanged when it is falsy or not a sequence, and filters
it otherwise. -/
def get_all_valid (data : Value) (path : List PKey) (m : Option Meta) :
    Except Unit AllValid := do
  let meta0 := rootMeta data m
  let (value, meta) ← get_valid_wm data path (some meta0)
  match value with
  | .list xs =>
      if (Value.list xs).truthy then (allValidGo meta 0 xs).map .items
      else pure (.pass (.list xs) meta)
  | v => pure (.pass v meta)

/-! Specification-side definitions, written from the wording of the claims
and compared with the embedded code by the theorems below. -/

/-- Direct indexing of the primary data along a path: each segment must
resolve as a present mapping key or an in-range (Python-normalized)
sequence index. -/
def directResolve : Value → List PKey → Option Value
  | data, [] => some data
  | data, k :: rest =>
      match dataStep data (normKey data k) with
      | some child => directResolve child rest
      | none => none

/-- The string segments entered by the resolution loop: each key is
normalized against the current data and textually coerced; the walk stops
after the first segment whose data step fails. -/
def enteredKeys : Value → List PKey → List String
  | _, [] => []
  | data, k :: rest =>
      let key := normKey data k
      pkeyStr key ::
        (match dataStep data key with
         | some child => enteredKeys child rest
         | none => [])

/-- The recorded errors of the annotation tree at a path of string
segments, read the way the code reads them. -/
def errsAt (tree : Value) (p : List String) : Except Unit Value :=
  Meta.get_errors ⟨tree, p⟩

/-- Claim-side description of the items kept by `get_all_valid` from index
`i` on: exactly the non-`None` items whose per-index cursor reports no
recorded errors, in their original order, paired with that cursor. -/
def keptFrom (m : Meta) : Nat → List Value → List (Value × Meta)
  | _, [] => []
  | i, x :: rest =>
      let im := m.enter1 (.i (i : Int))
      let keep :=
        !x.isNull &&
        (match im.get_errors with | .ok (.list []) => true | _ => false)
      if keep then (x, im) :: keptFrom m (i + 1) rest
      else keptFrom m (i + 1) rest

/-- Whether a value is a sequence. -/
def isListV : Value → Bool
  | .list _ => true
  | _ => false

/-- Claim-side tree walk of `raw()`: missing, `None` and falsy nodes are
replaced by empty mappings and the walk continues; a truthy non-mapping
node makes the next lookup impossible (`none`, the raising case). -/
def walkNodes : Value → List String → Option Value
  | node, [] => some node
  | .dict kvs, key :: rest =>
      let child := (lookupPK kvs (.s key)).getD .null
      walkNodes (if child.truthy then child else .dict []) rest
  | _, _ :: _ => none

/-- The normalized previous `err` sequence of an entry: an absent or
`None` value counts as the empty sequence, a stored sequence is itself,
anything else (on which the code would raise) is rejected. -/
def errSeq (kvs : List (PKey × Value)) : Option (List Value) :=
  match lookupPK kvs (.s "err") with
  | none => some []
  | some .null => some []
  | some (.list es) => some es
  | some _ => none

/-- Claim-side description of the entry produced by `merge`: the other
entry overlaid onto the current one, with `err` replaced by the
current-first concatenation exactly when both `err` sequences are
non-empty. -/
def mergedEntry (d od : List (PKey × Value)) (es os : List Value) :
    List (PKey × Value) :=
  let base := od.foldl (fun acc kv => setPK acc kv.1 kv.2) d
  if es.isEmpty || os.isEmpty then base
  else setPK base (.s "err") (.list (es ++ os))

/-- Claim-side description of the entry produced by `add_error`: the
previous errors with the textual error appended, and `val` overwritten
only when a non-`None` value is supplied. -/
def errAppended (d : List (PKey × Value)) (errStr : String) (value : Value)
    (es : List Value) : List (PKey × Value) :=
  let d1 := setPK d (.s "err") (.list (es ++ [.str errStr]))
  if value.isNull then d1 else setPK d1 (.s "val") value

/-- The entry a raw node yields: the value under the empty-string key, an
empty mapping when that value is falsy. -/
def entryOf (kvs : List (PKey × Value)) : Value :=
  let e := (lookupPK kvs (.s "")).getD .null
  if e.truthy then e else .dict []

/-- The error value an entry yields: the value under `err`, an empty
sequence when that value is falsy. -/
def errsOf (ekvs : List (PKey × Value)) : Value :=
  let e := (lookupPK ekvs (.s "err")).getD .null
  if e.truthy then e else .list []

/-! Support lemmas. -/

theorem lookupPK_setPK_self (l : List (PKey × Value)) (key : PKey) (v : Value) :
    lookupPK (setPK l key v) key = some v := by
  induction l with
  | nil => simp [setPK, lookupPK]
  | cons kv rest ih =>
      obtain ⟨k, w⟩ := kv
      by_cases hk : k = key
      · simp [setPK, hk, lookupPK]
      · simp [setPK, hk, lookupPK, ih]

theorem lookupPK_setPK_ne (l : List (PKey × Value)) (key key2 : PKey) (v : Value)
    (h : key2 ≠ key) : lookupPK (setPK l key v) key2 = lookupPK l key2 := by
  induction l with
  | nil =>
      simp only [setPK, lookupPK]
      rw [if_neg (fun he => h he.symm)]
  | cons kv rest ih =>
      obtain ⟨k, w⟩ := kv
      by_cases hk : k = key
      · subst hk
        simp only [setPK, if_pos rfl, lookupPK]
        rw [if_neg (fun he => h he.symm), if_neg (fun he => h he.symm)]
      · simp [setPK, hk, lookupPK, ih]

theorem lookupPK_none_of_not_mem (l : List (PKey × Value)) (key : PKey)
    (h : key ∉ l.map Prod.fst) : lookupPK l key = none := by
  induction l with
  | nil => rfl
  | cons kv rest ih =>
      obtain ⟨k, v⟩ := kv
      simp only [List.map_cons, List.mem_cons] at h
      push_neg at h
      have hk : k ≠ key := fun he => h.1 he.symm
      simp [lookupPK, hk, ih h.2]

theorem setPK_setPK (l : List (PKey × Value)) (key : PKey) (v w : Value) :
    setPK (setPK l key v) key w = setPK l key w := by
  induction l with
  | nil => simp [setPK]
  | cons kv rest ih =>
      obtain ⟨k, u⟩ := kv
      by_cases hk : k = key
      · simp [setPK, hk]
      · simp [setPK, hk, ih]

/-- Reading an updated mapping: a key of the source wins, any other key
keeps the destination value (source keys assumed distinct, as in a real
Python dict). -/
theorem lookupPK_update (od : List (PKey × Value)) :
    ∀ d key, (od.map Prod.fst).Nodup →
      lookupPK (od.foldl (fun acc kv => setPK acc kv.1 kv.2) d) key
        = match lookupPK od key with
          | some v => some v
          | none => lookupPK d key := by
  induction od with
  | nil => intro d key _; simp [lookupPK]
  | cons kv rest ih =>
      intro d key hnd
      obtain ⟨k, v⟩ := kv
      simp only [List.map_cons, List.nodup_cons] at hnd
      have hrec := ih (setPK d k v) key hnd.2
      simp only [List.foldl_cons] at *
      rw [hrec]
      by_cases hk : k = key
      · subst hk
        have hnone : lookupPK rest k = none := lookupPK_none_of_not_mem rest k hnd.1
        simp [hnone, lookupPK, lookupPK_setPK_self]
      · have hne : key ≠ k := Ne.symm hk
        simp [lookupPK, hk, lookupPK_setPK_ne d k key v hne]

theorem createGo_ne_null (p : List String) :
    ∀ node t e, node ≠ .null → createGo node p = .ok (t, e) → t ≠ .null := by
  induction p with
  | nil =>
      intro node t e hn h
      simp only [createGo, Except.ok.injEq, Prod.mk.injEq] at h
      exact h.1 ▸ hn
  | cons key rest ih =>
      intro node t e _ h
      match node with
      | .null => simp [createGo] at h
      | .bool _ => simp [createGo] at h
      | .int _ => simp [createGo] at h
      | .str _ => simp [createGo] at h
      | .list _ => simp [createGo] at h
      | .dict kvs =>
          simp only [createGo, bind, Except.bind] at h
          cases hc : createGo (match lookupPK kvs (.s key) with
            | none => Value.dict []
            | some .null => Value.dict []
            | some v => v) rest with
          | error e2 => rw [hc] at h; exact absurd h (by simp)
          | ok pr =>
              obtain ⟨c2, e2⟩ := pr
              rw [hc] at h
              simp only [pure, Except.pure, Except.ok.injEq, Prod.mk.injEq] at h
              intro hnull
              rw [← h.1] at hnull
              simp at hnull

theorem createGo_idem (p : List String) :
    ∀ node t e, createGo node p = .ok (t, e) → createGo t p = .ok (t, e) := by
  induction p with
  | nil =>
      intro node t e h
      simp only [createGo, Except.ok.injEq, Prod.mk.injEq] at h
      obtain ⟨h1, h2⟩ := h
      subst h1; subst h2; simp [createGo]
  | cons key rest ih =>
      intro node t e h
      match node with
      | .null => simp [createGo] at h
      | .bool _ => simp [createGo] at h
      | .int _ => simp [createGo] at h
      | .str _ => simp [createGo] at h
      | .list _ => simp [createGo] at h
      | .dict kvs =>
          simp only [createGo, bind, Except.bind] at h
          set c := (match lookupPK kvs (.s key) with
            | none => Value.dict []
            | some .null => Value.dict []
            | some v => v) with hcdef
          cases hc : createGo c rest with
          | error e2 => rw [hc] at h; exact absurd h (by simp)
          | ok pr =>
              obtain ⟨c2, e2⟩ := pr
              rw [hc] at h
              simp only [pure, Except.pure, Except.ok.injEq, Prod.mk.injEq] at h
              obtain ⟨ht, he⟩ := h
              have hcn : c ≠ .null := by
                rw [hcdef]
                match hl : lookupPK kvs (.s key) with
                | none => simp
                | some .null => simp
                | some (.bool b) => simp
                | some (.int n) => simp
                | some (.str s) => simp
                | some (.list xs) => simp
                | some (.dict kvs2) => simp
              have hc2n : c2 ≠ .null := createGo_ne_null rest c c2 e2 hcn hc
              rw [← ht]
              simp only [createGo, bind, Except.bind, lookupPK_setPK_self]
              rw [ih c c2 e2 hc]
              simp [pure, Except.pure, setPK_setPK, he]

theorem get_errors_shape (m : Meta) (e : Value) (h : m.get_errors = .ok e) :
    e.truthy = true ∨ e = .list [] := by
  unfold Meta.get_errors at h
  cases hg : m.get with
  | error u => rw [hg] at h; simp [bind, Except.bind] at h
  | ok g =>
      rw [hg] at h
      simp only [bind, Except.bind] at h
      cases hd : pyDictGet g (.s "err") with
      | error u => rw [hd] at h; simp at h
      | ok errv =>
          rw [hd] at h
          simp only [pure, Except.pure, Except.ok.injEq] at h
          by_cases ht : errv.truthy
          · left; rw [← h]; simp [ht]
          · right; rw [← h]; simp [ht]

theorem enter_mk (tree : Value) (p : List String) (keys : List PKey) :
    Meta.enter ⟨tree, p⟩ keys = ⟨tree, p ++ keys.map pkeyStr⟩ := rfl

theorem getValidLoop_fst (root : Meta) (o1 o2 : List PKey) :
    ∀ ks (data : Value) (meta : Meta),
      (getValidLoop root o1 data meta ks).map Prod.fst
        = (getValidLoop root o2 data meta ks).map Prod.fst := by
  intro ks
  induction ks with
  | nil => intro data meta; rfl
  | cons k rest ih =>
      intro data meta
      simp only [getValidLoop]
      cases he : (meta.enter1 (normKey data k)).get_errors with
      | error u => simp [bind, Except.bind, he]
      | ok errs =>
          simp only [bind, Except.bind, he]
          by_cases ht : errs.truthy
          · simp [ht, pure, Except.pure, Except.map]
          · simp only [ht, Bool.false_eq_true, if_false]
            cases dataStep data (normKey data k) with
            | some child => exact ih child (meta.enter1 (normKey data k))
            | none => simp [pure, Except.pure, Except.map]

theorem getValidLoop_cases (ks : List PKey) :
    ∀ (data : Value) (meta root : Meta) (orig : List PKey),
      getValidLoop root orig data meta ks = .error ()
      ∨ (∃ v, directResolve data ks = some v ∧
          getValidLoop root orig data meta ks
            = .ok (v, ⟨meta.tree, meta.path ++ enteredKeys data ks⟩))
      ∨ getValidLoop root orig data meta ks = .ok (.null, root.enter orig) := by
  induction ks with
  | nil =>
      intro data meta root orig
      right; left
      exact ⟨data, rfl, by simp [getValidLoop, enteredKeys]⟩
  | cons k rest ih =>
      intro data meta root orig
      simp only [getValidLoop]
      cases he : (meta.enter1 (normKey data k)).get_errors with
      | error u => left; simp [bind, Except.bind, he]
      | ok errs =>
          by_cases ht : errs.truthy
          · right; right; simp [bind, Except.bind, he, ht, pure, Except.pure]
          · cases hd : dataStep data (normKey data k) with
            | none =>
                right; right
                simp [bind, Except.bind, he, ht, hd, pure, Except.pure]
            | some child =>
                rcases ih child (meta.enter1 (normKey data k)) root orig with
                  herr | ⟨v, hdr, hloop⟩ | hsent
                · left; simp [bind, Except.bind, he, ht, hd, herr]
                · right; left
                  refine ⟨v, ?_, ?_⟩
                  · simp [directResolve, hd, hdr]
                  · simp only [bind, Except.bind, he, ht, Bool.false_eq_true,
                      if_false, hd, hloop]
                    simp [Meta.enter1, enteredKeys, hd]
                · right; right
                  simp [bind, Except.bind, he, ht, hd, hsent]

theorem getValidLoop_clean (ks : List PKey) :
    ∀ (data : Value) (meta root : Meta) (orig : List PKey) (v : Value),
      directResolve data ks = some v →
      (∀ n, 1 ≤ n → n ≤ (enteredKeys data ks).length →
        errsAt meta.tree (meta.path ++ (enteredKeys data ks).take n)
          = .ok (.list [])) →
      getValidLoop root orig data meta ks
        = .ok (v, ⟨meta.tree, meta.path ++ enteredKeys data ks⟩) := by
  induction ks with
  | nil =>
      intro data meta root orig v hres _
      simp only [directResolve, Option.some.injEq] at hres
      simp [getValidLoop, hres, enteredKeys]
  | cons k rest ih =>
      intro data meta root orig v hres herr
      simp only [directResolve] at hres
      cases hd : dataStep data (normKey data k) with
      | none => rw [hd] at hres; simp at hres
      | some child =>
          rw [hd] at hres
          have hE : enteredKeys data (k :: rest)
              = pkeyStr (normKey data k) :: enteredKeys child rest := by
            simp [enteredKeys, hd]
          have he1 : (meta.enter1 (normKey data k)).get_errors = .ok (.list []) := by
            have := herr 1 le_rfl (by rw [hE]; simp)
            rw [hE] at this
            simpa [errsAt, Meta.enter1, List.take] using this
          simp only [getValidLoop, bind, Except.bind, he1]
          have hfalse : Value.truthy (.list []) = false := by rfl
          simp only [hfalse, Bool.false_eq_true, if_false, hd]
          have hrec := ih child (meta.enter1 (normKey data k)) root orig v hres ?_
          · rw [hrec, hE]
            simp [Meta.enter1]
          · intro n h1 hn
            have := herr (n + 1) (by omega)
              (by rw [hE]; simp; omega)
            rw [hE] at this
            simpa [Meta.enter1, List.take, List.append_assoc] using this

theorem getValidLoop_err (ks : List PKey) :
    ∀ (data : Value) (meta root : Meta) (orig : List PKey) (n : Nat),
      1 ≤ n → n ≤ (enteredKeys data ks).length →
      (∀ j, 1 ≤ j → j < n →
        ∃ e, errsAt meta.tree (meta.path ++ (enteredKeys data ks).take j) = .ok e) →
      (∃ e, errsAt meta.tree (meta.path ++ (enteredKeys data ks).take n) = .ok e
        ∧ e.truthy = true) →
      getValidLoop root orig data meta ks = .ok (.null, root.enter orig) := by
  induction ks with
  | nil =>
      intro data meta root orig n h1 hn _ _
      simp [enteredKeys] at hn
      omega
  | cons k rest ih =>
      intro data meta root orig n h1 hn hread herr
      rcases eq_or_lt_of_le h1 with h1e | h1g
      · subst h1e
        obtain ⟨e, hee, het⟩ := herr
        have he : (meta.enter1 (normKey data k)).get_errors = .ok e := by
          rcases hdc : dataStep data (normKey data k) with _ | child <;>
            · have hE : enteredKeys data (k :: rest)
                  = pkeyStr (normKey data k) ::
                    (match dataStep data (normKey data k) with
                     | some c => enteredKeys c rest
                     | none => []) := by simp [enteredKeys]
              rw [hE, hdc] at hee
              simpa [errsAt, Meta.enter1, List.take] using hee
        simp [getValidLoop, bind, Except.bind, he, het, pure, Except.pure]
      · obtain ⟨e1, he1⟩ := hread 1 le_rfl h1g
        cases hd : dataStep data (normKey data k) with
        | none =>
            have : (enteredKeys data (k :: rest)).length = 1 := by
              simp [enteredKeys, hd]
            omega
        | some child =>
            have hE : enteredKeys data (k :: rest)
                = pkeyStr (normKey data k) :: enteredKeys child rest := by
              simp [enteredKeys, hd]
            rw [hE] at he1
            have he1m : (meta.enter1 (normKey data k)).get_errors = .ok e1 := by
              simpa [errsAt, Meta.enter1, List.take] using he1
            by_cases ht : e1.truthy
            · simp [getValidLoop, bind, Except.bind, he1m, ht, pure, Except.pure]
            · simp only [getValidLoop, bind, Except.bind, he1m, ht,
                Bool.false_eq_true, if_false, hd]
              apply ih child (meta.enter1 (normKey data k)) root orig (n - 1)
                (by omega)
              · rw [hE] at hn
                simp at hn
                simp [Meta.enter1]
                omega
              · intro j hj1 hjn
                obtain ⟨e2, he2⟩ := hread (j + 1) (by omega) (by omega)
                rw [hE] at he2
                exact ⟨e2, by simpa [Meta.enter1, List.take, List.append_assoc]
                  using he2⟩
              · obtain ⟨e2, he2, het2⟩ := herr
                rw [hE] at he2
                have hn1 : n = (n - 1) + 1 := by omega
                rw [hn1] at he2
                refine ⟨e2, ?_, het2⟩
                simpa [Meta.enter1, List.take, List.append_assoc] using he2

theorem isNull_iff (v : Value) : v.isNull = true ↔ v = .null := by
  cases v <;> simp [Value.isNull]

theorem allValidGo_keptFrom (xs : List Value) :
    ∀ (i : Nat) (m : Meta),
      (∀ j x, (j, x) ∈ xs.enumFrom i → x ≠ .null →
        ∃ e, (m.enter1 (.i (j : Int))).get_errors = .ok e) →
      allValidGo m i xs = .ok (keptFrom m i xs) := by
  induction xs with
  | nil => intro i m _; rfl
  | cons x rest ih =>
      intro i m hread
      have htail : ∀ j y, (j, y) ∈ rest.enumFrom (i + 1) → y ≠ .null →
          ∃ e, (m.enter1 (.i (j : Int))).get_errors = .ok e := by
        intro j y hj hy
        exact hread j y (by simp [List.enumFrom]; right; exact hj) hy
      by_cases hx : x.isNull
      · simp only [allValidGo, keptFrom, hx, if_true, Bool.not_true,
          Bool.false_and, if_false]
        exact ih (i + 1) m htail
      · have hxn : x ≠ .null := fun he => hx (by rw [he]; rfl)
        obtain ⟨e, he⟩ := hread i x (by simp [List.enumFrom]) hxn
        simp only [allValidGo, keptFrom, hx, if_false, Bool.not_false,
          Bool.true_and, bind, Except.bind, he, ih (i + 1) m htail]
        rcases get_errors_shape _ e he with het | hee
        · have hmatch : (match (Except.ok e : Except Unit Value) with
              | .ok (.list []) => true | _ => false) = false := by
            match e, het with
            | .bool b, _ => rfl
            | .int n, _ => rfl
            | .str s, _ => rfl
            | .list (y :: ys), _ => rfl
            | .dict kvs, _ => rfl
          simp [het, hmatch, pure, Except.pure]
        · subst hee
          simp [pure, Except.pure, Value.truthy]

theorem walkNodes_rawGo (p : List String) :
    ∀ node v, walkNodes node p = some v → rawGo node p = .ok v := by
  induction p with
  | nil => intro node v h; simp only [walkNodes, Option.some.injEq] at h; simp [rawGo, h]
  | cons key rest ih =>
      intro node v h
      match node with
      | .null => simp [walkNodes] at h
      | .bool b => simp [walkNodes] at h
      | .int n => simp [walkNodes] at h
      | .str s => simp [walkNodes] at h
      | .list xs => simp [walkNodes] at h
      | .dict kvs =>
          simp only [walkNodes] at h
          simp only [rawGo, bind, Except.bind, pyDictGet]
          exact ih _ v h

/-! Claim theorems. -/

/-- Claim C10: calling `get_valid` with zero path segments returns the data
unchanged, paired with the starting cursor when `with_meta` is set.  The
statement quantifies over every data value and every starting cursor, in
particular over annotation trees whose root node carries a non-empty `err`
list: recorded errors are only consulted for entered segments, never for
the starting node. -/
theorem c10_empty_path_returns_data (data : Value) (m : Option Meta) :
    get_valid_wm data [] m = .ok (data, rootMeta data m)
      ∧ get_valid data [] m = .ok data :=
  ⟨rfl, rfl⟩

/-- Claim C9: every outcome of `get_valid` with `with_meta` is either a
raised exception, a clean resolution whose value is the directly indexed
value and whose cursor is the root cursor advanced by the entered
(normalized) segments, or the not-found sentinel whose cursor is the root
cursor advanced by the entire original segment list, so that a failure
cursor always carries the stringified full requested path no matter where
resolution stopped. -/
theorem c9_failure_cursor_full_path (data : Value) (path : List PKey) (m : Option Meta) :
    get_valid_wm data path m = .error ()
    ∨ (∃ v, directResolve data path = some v ∧
        get_valid_wm data path m
          = .ok (v, ⟨(rootMeta data m).tree,
                     (rootMeta data m).path ++ enteredKeys data path⟩))
    ∨ get_valid_wm data path m = .ok (.null, (rootMeta data m).enter path) := by
  have h := getValidLoop_cases path data (rootMeta data m) (rootMeta data m) path
  simpa [get_valid_wm] using h

/-- Claim C1: when every segment of the path resolves by direct indexing
(present mapping key or in-range, Python-normalized sequence index) and no
entered path prefix has recorded errors (its `get_errors` read returns the
empty list), `get_valid` returns exactly the directly indexed nested
value; with `with_meta` it also returns the fully advanced cursor. -/
theorem c1_clean_path_resolves (tree data : Value) (path : List PKey) (v : Value)
    (hres : directResolve data path = some v)
    (herr : ∀ n, 1 ≤ n → n ≤ (enteredKeys data path).length →
      errsAt tree ((enteredKeys data path).take n) = .ok (.list [])) :
    get_valid data path (some ⟨tree, []⟩) = .ok v
      ∧ get_valid_wm data path (some ⟨tree, []⟩)
          = .ok (v, ⟨tree, enteredKeys data path⟩) := by
  have h := getValidLoop_clean path data ⟨tree, []⟩ ⟨tree, []⟩ path v hres
    (by intro n h1 hn; simpa using herr n h1 hn)
  have h2 : get_valid_wm data path (some ⟨tree, []⟩)
      = .ok (v, ⟨tree, enteredKeys data path⟩) := by
    simpa [get_valid_wm, rootMeta] using h
  exact ⟨by simp [get_valid, h2, Except.map], h2⟩

/-- Claim C1 witness: a mapping with a clean sequence resolves index 0. -/
theorem c1_clean_path_resolves_witness :
    get_valid (.dict [(.s "a", .list [.int 1, .int 2, .int 3])])
      [.s "a", .i 0] (some ⟨.dict [], []⟩) = .ok (.int 1) := by
  have h := (c1_clean_path_resolves (.dict [])
    (.dict [(.s "a", .list [.int 1, .int 2, .int 3])])
    [.s "a", .i 0] (.int 1) rfl
    (by
      intro n h1 hn
      have h2 : n ≤ 2 := hn
      interval_cases n <;> rfl)).1
  exact h

/-- Claim C2: when some entered path prefix (of length at least 1, the
earlier entered prefixes being readable) has recorded errors whose value
is truthy, `get_valid` returns the not-found sentinel: `None`, paired with
the cursor at the full requested path when `with_meta` is set, regardless
of whether the underlying data value exists. -/
theorem c2_errors_give_not_found (tree data : Value) (path : List PKey) (n : Nat)
    (h1 : 1 ≤ n) (hn : n ≤ (enteredKeys data path).length)
    (hread : ∀ j, 1 ≤ j → j < n →
      ∃ e, errsAt tree ((enteredKeys data path).take j) = .ok e)
    (herr : ∃ e, errsAt tree ((enteredKeys data path).take n) = .ok e
      ∧ e.truthy = true) :
    get_valid_wm data path (some ⟨tree, []⟩)
        = .ok (.null, ⟨tree, path.map pkeyStr⟩)
      ∧ get_valid data path (some ⟨tree, []⟩) = .ok .null := by
  have h := getValidLoop_err path data ⟨tree, []⟩ ⟨tree, []⟩ path n h1 hn
    (by intro j hj1 hjn
        obtain ⟨e, he⟩ := hread j hj1 hjn
        exact ⟨e, by simpa using he⟩)
    (by obtain ⟨e, he, ht⟩ := herr
        exact ⟨e, by simpa using he, ht⟩)
  have h2 : get_valid_wm data path (some ⟨tree, []⟩)
      = .ok (.null, ⟨tree, path.map pkeyStr⟩) := by
    simpa [get_valid_wm, rootMeta, Meta.enter] using h
  exact ⟨h2, by simp [get_valid, h2, Except.map]⟩

/-- Claim C2 witness: the spec example, where index 1 of the sequence has
a recorded error, fails to a sentinel carrying the full path even though
the data value 2 exists at that index. -/
theorem c2_errors_give_not_found_witness :
    get_valid_wm (.dict [(.s "a", .list [.int 1, .int 2, .int 3])])
        [.s "a", .i 1]
        (some ⟨.dict [(.s "a", .dict [(.s "1",
          .dict [(.s "", .dict [(.s "err", .list [.str "invalid"])])])])], []⟩)
      = .ok (.null, ⟨.dict [(.s "a", .dict [(.s "1",
          .dict [(.s "", .dict [(.s "err", .list [.str "invalid"])])])])],
          ["a", "1"]⟩) := by
  have h := (c2_errors_give_not_found
    (.dict [(.s "a", .dict [(.s "1",
      .dict [(.s "", .dict [(.s "err", .list [.str "invalid"])])])])])
    (.dict [(.s "a", .list [.int 1, .int 2, .int 3])])
    [.s "a", .i 1] 2 (by decide) (by decide)
    (by intro j hj1 hjn
        have hj : j = 1 := by omega
        subst hj
        exact ⟨.list [], rfl⟩)
    ⟨.list [.str "invalid"], rfl, rfl⟩).1
  exact h

/-- Claim C4 counterexample: on the one-element sequence `[5]`, resolving
the negative index `-2` returns the sentinel `None`, while resolving the
normalized index `len + (-2) = -1` re-normalizes it to `0` and returns
`5`, so the two calls do not behave identically as the claim states. -/
theorem c4_negative_index_counterexample :
    get_valid (.list [.int 5]) [.i (-2)] none = .ok .null
    ∧ get_valid (.list [.int 5]) [.i ((1 : Int) + (-2))] none = .ok (.int 5)
    ∧ (Except.ok Value.null : Except Unit Value) ≠ .ok (.int 5) := by
  refine ⟨rfl, rfl, fun h => Value.noConfusion (Except.ok.inj h)⟩

/-- Claim C4 as amended: for a sequence and a negative integer segment `i`
whose normalization `len + i` is non-negative, `get_valid` returns the
same resolved value for `i` and for `len + i` (in both modes, the plain
result being the value component); the failure cursor under `with_meta` is
not guaranteed identical, because it stringifies the original segment. -/
theorem c4_negative_index_amended (xs : List Value) (i : Int) (rest : List PKey)
    (m : Option Meta) (hneg : i < 0) (hin : 0 ≤ (xs.length : Int) + i) :
    get_valid (.list xs) (.i i :: rest) m
      = get_valid (.list xs) (.i ((xs.length : Int) + i) :: rest) m := by
  unfold get_valid get_valid_wm
  set root := rootMeta (.list xs) m with hroot
  have hk : normKey (.list xs) (.i i) = .i ((xs.length : Int) + i) := by
    simp [normKey, hneg]
  have hk2 : normKey (.list xs) (.i ((xs.length : Int) + i))
      = .i ((xs.length : Int) + i) := by
    simp only [normKey]
    rw [if_neg (by omega)]
  simp only [getValidLoop, hk, hk2]
  cases he : (root.enter1 (.i ((xs.length : Int) + i))).get_errors with
  | error u => simp [bind, Except.bind, he, Except.map]
  | ok errs =>
      by_cases ht : errs.truthy
      · simp [bind, Except.bind, he, ht, pure, Except.pure, Except.map]
      · simp only [bind, Except.bind, he, ht, Bool.false_eq_true, if_false]
        cases hd : dataStep (.list xs) (.i ((xs.length : Int) + i)) with
        | some child =>
            exact getValidLoop_fst root (.i i :: rest)
              (.i ((xs.length : Int) + i) :: rest) rest child
              (root.enter1 (.i ((xs.length : Int) + i)))
        | none => simp [pure, Except.pure, Except.map]

/-- Claim C4 witness for the amended statement: `-1` and `1 + (-1) = 0`
resolve identically on a one-element sequence. -/
theorem c4_negative_index_amended_witness :
    get_valid (.list [.int 7]) [.i (-1)] none
      = get_valid (.list [.int 7]) [.i ((1 : Int) + (-1))] none :=
  c4_negative_index_amended [.int 7] (-1) [] none (by decide) (by decide)

/-- Claim C3: when the value resolved by `get_all_valid` is a non-empty
sequence (and the per-index error reads of its non-`None` items succeed),
the returned list contains exactly the non-`None` items whose per-index
cursor has an empty recorded error list, in their original relative order;
when the resolved value is falsy or not a sequence, it is passed through
unchanged together with its cursor. -/
theorem c3_all_valid_filters :
    (∀ (data : Value) (path : List PKey) (m : Option Meta) (v : Value) (mc : Meta),
      get_valid_wm data path (some (rootMeta data m)) = .ok (v, mc) →
      v.truthy = false ∨ isListV v = false →
      get_all_valid data path m = .ok (.pass v mc))
    ∧ (∀ (data : Value) (path : List PKey) (m : Option Meta)
        (xs : List Value) (mc : Meta),
      get_valid_wm data path (some (rootMeta data m)) = .ok (.list xs, mc) →
      xs ≠ [] →
      (∀ j x, (j, x) ∈ xs.enumFrom 0 → x ≠ .null →
        ∃ e, (mc.enter1 (.i (j : Int))).get_errors = .ok e) →
      get_all_valid data path m = .ok (.items (keptFrom mc 0 xs))) := by
  constructor
  · intro data path m v mc hg hv
    cases v with
    | list xs =>
        rcases hv with hv | hv
        · simp only [get_all_valid, bind, Except.bind, hg]
          simp [hv, pure, Except.pure]
        · simp [isListV] at hv
    | null => simp [get_all_valid, bind, Except.bind, hg, pure, Except.pure]
    | bool b => simp [get_all_valid, bind, Except.bind, hg, pure, Except.pure]
    | int n => simp [get_all_valid, bind, Except.bind, hg, pure, Except.pure]
    | str s => simp [get_all_valid, bind, Except.bind, hg, pure, Except.pure]
    | dict kvs => simp [get_all_valid, bind, Except.bind, hg, pure, Except.pure]
  · intro data path m xs mc hg hne hread
    have hfil := allValidGo_keptFrom xs 0 mc hread
    have ht : (Value.list xs).truthy = true := by
      cases xs with
      | nil => exact absurd rfl hne
      | cons a l => rfl
    simp only [get_all_valid, bind, Except.bind, hg]
    simp [ht, hfil, Except.map]

/-- Claim C3 witness: the spec end-to-end example; index 1 carries an
error, so of `[1, 2, 3]` only items 1 and 3 are kept, in order. -/
theorem c3_all_valid_filters_witness :
    get_all_valid (.dict [(.s "a", .list [.int 1, .int 2, .int 3]),
        (.s "_meta", .dict [(.s "a", .dict [(.s "1",
          .dict [(.s "", .dict [(.s "err", .list [.str "invalid"])])])])])])
      [.s "a"] none
    = .ok (.items [(.int 1, ⟨.dict [(.s "a", .dict [(.s "1",
        .dict [(.s "", .dict [(.s "err", .list [.str "invalid"])])])])],
        ["a", "0"]⟩),
      (.int 3, ⟨.dict [(.s "a", .dict [(.s "1",
        .dict [(.s "", .dict [(.s "err", .list [.str "invalid"])])])])],
        ["a", "2"]⟩)]) := by
  have h := c3_all_valid_filters.2
    (.dict [(.s "a", .list [.int 1, .int 2, .int 3]),
      (.s "_meta", .dict [(.s "a", .dict [(.s "1",
        .dict [(.s "", .dict [(.s "err", .list [.str "invalid"])])])])])])
    [.s "a"] none [.int 1, .int 2, .int 3]
    ⟨.dict [(.s "a", .dict [(.s "1",
      .dict [(.s "", .dict [(.s "err", .list [.str "invalid"])])])])], ["a"]⟩
    rfl (fun hh => List.noConfusion hh)
    (by
      intro j x hj hx
      simp only [List.enumFrom, List.mem_cons, List.not_mem_nil, or_false] at hj
      rcases hj with hj | hj | hj <;>
        · obtain ⟨hj1, hj2⟩ := Prod.mk.injEq .. ▸ hj
          subst hj1
          exact ⟨_, rfl⟩)
  exact h

/-- Claim C7: `create` is idempotent; when a call succeeds with updated
cursor `m1` and entry `e`, calling `create` again on `m1` returns the very
same tree and the same entry, mutating nothing. -/
theorem c7_create_idempotent (m m1 : Meta) (entry : Value)
    (h : m.create = .ok (m1, entry)) :
    m1.create = .ok (m1, entry) := by
  unfold Meta.create at h
  cases hc : createGo m.tree (m.path ++ [""]) with
  | error u => rw [hc] at h; simp [Except.map] at h
  | ok pr =>
      obtain ⟨t, e⟩ := pr
      rw [hc] at h
      simp only [Except.map, Except.ok.injEq, Prod.mk.injEq] at h
      obtain ⟨hm1, he⟩ := h
      have hidem := createGo_idem (m.path ++ [""]) m.tree t e hc
      rw [← hm1]
      unfold Meta.create
      simp [hidem, Except.map, he]

/-- Claim C7 witness: creating twice at path `x` over an initially empty
tree; the second call returns the same tree and entry. -/
theorem c7_create_idempotent_witness :
    Meta.create ⟨.dict [(.s "x", .dict [(.s "", .dict [])])], ["x"]⟩
      = .ok (⟨.dict [(.s "x", .dict [(.s "", .dict [])])], ["x"]⟩, .dict []) :=
  c7_create_idempotent ⟨.dict [], ["x"]⟩
    ⟨.dict [(.s "x", .dict [(.s "", .dict [])])], ["x"]⟩ (.dict []) rfl

/-- Claim C8 counterexample: the read operations can raise.  A truthy
non-mapping node is not treated as an empty mapping: `raw` raises when the
walk must read through the integer node `5`, `get` raises when the current
node is the integer `5`, and `get_errors` raises when the entry is the
non-empty text `x`.  In each case the code calls `.get` on a value that
has no such attribute (an AttributeError), contradicting the claim that
these operations never raise on malformed trees. -/
theorem c8_read_raises_counterexample :
    Meta.raw ⟨.dict [(.s "a", .int 5)], ["a", "b"]⟩ = .error ()
    ∧ Meta.get ⟨.int 5, []⟩ = .error ()
    ∧ Meta.get_errors ⟨.dict [(.s "", .str "x")], []⟩ = .error () :=
  ⟨rfl, rfl, rfl⟩

/-- Claim C8 as amended: missing, `None` and falsy nodes are treated as
empty mappings and traversal continues, and the read operations do not
raise as long as every truthy node they read through is a mapping: `raw`
succeeds whenever the claim-side walk does, `get` additionally needs the
reached raw node to be a mapping, and `get_errors` additionally needs the
entry to be a mapping (an entry coerced from a falsy value always is); a
truthy non-mapping node at any of these spots raises instead. -/
theorem c8_read_tolerant_amended :
    (∀ (m : Meta) (v : Value), walkNodes m.tree m.path = some v → m.raw = .ok v)
    ∧ (∀ (m : Meta) (kvs : List (PKey × Value)),
        walkNodes m.tree m.path = some (.dict kvs) → m.get = .ok (entryOf kvs))
    ∧ (∀ (m : Meta) (kvs ekvs : List (PKey × Value)),
        walkNodes m.tree m.path = some (.dict kvs) →
        entryOf kvs = .dict ekvs →
        m.get_errors = .ok (errsOf ekvs)) := by
  have hraw : ∀ (m : Meta) (v : Value),
      walkNodes m.tree m.path = some v → m.raw = .ok v := fun m v h =>
    walkNodes_rawGo m.path m.tree v h
  have hget : ∀ (m : Meta) (kvs : List (PKey × Value)),
      walkNodes m.tree m.path = some (.dict kvs) → m.get = .ok (entryOf kvs) := by
    intro m kvs h
    unfold Meta.get
    rw [hraw m (.dict kvs) h]
    simp [bind, Except.bind, pyDictGet, pure, Except.pure, entryOf]
  refine ⟨hraw, hget, ?_⟩
  intro m kvs ekvs h hentry
  unfold Meta.get_errors
  rw [hget m kvs h, hentry]
  simp [bind, Except.bind, pyDictGet, pure, Except.pure, errsOf]

/-- Claim C8 witness for the amended statement: a well-formed tree is read
without raising by all three operations. -/
theorem c8_read_tolerant_amended_witness :
    Meta.raw ⟨.dict [(.s "", .dict [(.s "err", .list [.str "x"])])], []⟩
        = .ok (.dict [(.s "", .dict [(.s "err", .list [.str "x"])])])
    ∧ Meta.get ⟨.dict [(.s "", .dict [(.s "err", .list [.str "x"])])], []⟩
        = .ok (.dict [(.s "err", .list [.str "x"])])
    ∧ Meta.get_errors ⟨.dict [(.s "", .dict [(.s "err", .list [.str "x"])])], []⟩
        = .ok (.list [.str "x"]) :=
  ⟨c8_read_tolerant_amended.1 ⟨.dict [(.s "", .dict [(.s "err", .list [.str "x"])])], []⟩
      (.dict [(.s "", .dict [(.s "err", .list [.str "x"])])]) rfl,
    c8_read_tolerant_amended.2.1 ⟨.dict [(.s "", .dict [(.s "err", .list [.str "x"])])], []⟩
      [(.s "", .dict [(.s "err", .list [.str "x"])])] rfl,
    c8_read_tolerant_amended.2.2 ⟨.dict [(.s "", .dict [(.s "err", .list [.str "x"])])], []⟩
      [(.s "", .dict [(.s "err", .list [.str "x"])])]
      [(.s "err", .list [.str "x"])] rfl rfl⟩

/-- Claim C6: `add_error` materializes the entry at the current path,
appends the textual form of the error to its `err` sequence (a fresh
sequence when `err` was absent or `None`), overwrites `val` with the given
value exactly when that value is not `None` (leaving any prior `val`
untouched otherwise), and leaves every other key of the entry unchanged. -/
theorem c6_add_error_appends (self : Meta) (error value : Value) (m1 : Meta)
    (d : List (PKey × Value)) (es : List Value)
    (hc : self.create = .ok (m1, .dict d))
    (he : errSeq d = some es) :
    self.add_error error value
        = .ok ⟨setEntryGo m1.tree (self.path ++ [""])
            (.dict (errAppended d (pyText error) value es)), self.path⟩
      ∧ lookupPK (errAppended d (pyText error) value es) (.s "err")
          = some (.list (es ++ [.str (pyText error)]))
      ∧ (value.isNull = true →
          lookupPK (errAppended d (pyText error) value es) (.s "val")
            = lookupPK d (.s "val"))
      ∧ (value.isNull = false →
          lookupPK (errAppended d (pyText error) value es) (.s "val")
            = some value)
      ∧ (∀ k, k ≠ .s "err" → k ≠ .s "val" →
          lookupPK (errAppended d (pyText error) value es) k = lookupPK d k) := by
  have hvalerr : (PKey.s "val") ≠ (PKey.s "err") := by decide
  have herrval : (PKey.s "err") ≠ (PKey.s "val") := by decide
  have hmain : self.add_error error value
      = .ok ⟨setEntryGo m1.tree (self.path ++ [""])
          (.dict (errAppended d (pyText error) value es)), self.path⟩ := by
    unfold Meta.add_error
    rw [hc]
    simp only [bind, Except.bind]
    unfold errSeq at he
    cases hl : lookupPK d (.s "err") with
    | none =>
        rw [hl] at he
        simp only [Option.some.injEq] at he
        subst he
        simp [hl, lookupPK_setPK_self, setPK_setPK, errAppended, pure, Except.pure]
    | some v =>
        rw [hl] at he
        cases v with
        | null =>
            simp only [Option.some.injEq] at he
            subst he
            simp [hl, lookupPK_setPK_self, setPK_setPK, errAppended, pure,
              Except.pure]
        | list es0 =>
            simp only [Option.some.injEq] at he
            subst he
            simp [hl, errAppended, pure, Except.pure]
        | bool b => exact absurd he (by simp)
        | int n => exact absurd he (by simp)
        | str s => exact absurd he (by simp)
        | dict kvs2 => exact absurd he (by simp)
  refine ⟨hmain, ?_, ?_, ?_, ?_⟩
  · unfold errAppended
    by_cases hnull : value.isNull
    · simp only [hnull, if_true]
      exact lookupPK_setPK_self d (.s "err") (.list (es ++ [.str (pyText error)]))
    · simp only [hnull, Bool.false_eq_true, if_false]
      rw [lookupPK_setPK_ne _ (.s "val") (.s "err") value herrval]
      exact lookupPK_setPK_self d (.s "err") (.list (es ++ [.str (pyText error)]))
  · intro hnull
    unfold errAppended
    simp only [hnull, if_true]
    exact lookupPK_setPK_ne d (.s "err") (.s "val") _ hvalerr
  · intro hnull
    unfold errAppended
    simp only [hnull, Bool.false_eq_true, if_false]
    exact lookupPK_setPK_self _ (.s "val") value
  · intro k hke hkv
    unfold errAppended
    by_cases hnull : value.isNull
    · simp only [hnull, if_true]
      exact lookupPK_setPK_ne d (.s "err") k _ hke
    · simp only [hnull, Bool.false_eq_true, if_false]
      rw [lookupPK_setPK_ne _ (.s "val") k value hkv]
      exact lookupPK_setPK_ne d (.s "err") k _ hke

/-- Claim C6 witness: the spec example; on a fresh path,
`add_error("boom", value=42)` yields the entry with `err = ["boom"]` and
`val = 42`, and a second `add_error("bang")` appends to `err` while
leaving `val` untouched. -/
theorem c6_add_error_appends_witness :
    Meta.add_error ⟨.dict [], []⟩ (.str "boom") (.int 42)
        = .ok ⟨.dict [(.s "", .dict [(.s "err", .list [.str "boom"]),
            (.s "val", .int 42)])], []⟩
      ∧ lookupPK (errAppended [] (pyText (.str "boom")) (.int 42) [])
          (.s "err") = some (.list [.str "boom"])
      ∧ Meta.add_error ⟨.dict [(.s "", .dict [(.s "err", .list [.str "boom"]),
            (.s "val", .int 42)])], []⟩ (.str "bang") .null
          = .ok ⟨.dict [(.s "", .dict [(.s "err",
              .list [.str "boom", .str "bang"]), (.s "val", .int 42)])], []⟩ := by
  have h := c6_add_error_appends ⟨.dict [], []⟩ (.str "boom") (.int 42)
    ⟨.dict [(.s "", .dict [])], []⟩ [] [] rfl rfl
  exact ⟨h.1, h.2.1, rfl⟩

theorem errSeq_cases (d : List (PKey × Value)) (es : List Value)
    (he : errSeq d = some es) :
    ((lookupPK d (.s "err")).getD .null = .null ∧ es = [])
    ∨ (lookupPK d (.s "err")).getD .null = .list es := by
  unfold errSeq at he
  cases hl : lookupPK d (.s "err") with
  | none =>
      rw [hl] at he
      simp only [Option.some.injEq] at he
      left
      exact ⟨by simp [hl], he.symm ▸ rfl⟩
  | some v =>
      rw [hl] at he
      cases v with
      | null =>
          simp only [Option.some.injEq] at he
          left
          exact ⟨by simp [hl], he.symm ▸ rfl⟩
      | list es0 =>
          simp only [Option.some.injEq] at he
          right
          simp [hl, he]
      | bool b => exact absurd he (by simp)
      | int n => exact absurd he (by simp)
      | str s => exact absurd he (by simp)
      | dict k2 => exact absurd he (by simp)

/-- Claim C5 counterexample: a destination entry with `err = ["b"]` merged
with a source entry that also has an `err` sequence, the empty one (the
source entry is truthy as a one-key mapping).  Both entries have an `err`
sequence, so the claim requires the merged `err` to be the concatenation
`["b"] ++ [] = ["b"]`; the code instead takes the truthiness branch, skips
concatenation, and the overlay leaves `err = []`. -/
theorem c5_merge_empty_err_counterexample :
    Meta.merge ⟨.dict [(.s "", .dict [(.s "err", .list [.str "b"])])], []⟩
        ⟨.dict [(.s "", .dict [(.s "err", .list [])])], []⟩
      = .ok (⟨.dict [(.s "", .dict [(.s "err", .list [])])], []⟩,
          .dict [(.s "err", .list [])])
    ∧ (some (Value.list []) : Option Value) ≠ some (.list ([.str "b"] ++ [])) := by
  refine ⟨rfl, fun h => ?_⟩
  have h1 := Option.some.inj h
  have h2 := congrArg (fun v => match v with | Value.list l => l.length | _ => 0) h1
  simp at h2

/-- Claim C5 as amended: `merge` reads the entry of the other cursor and,
when it is empty (falsy), changes nothing and returns `None`; otherwise it
materializes the current entry, overlays all keys of the other entry onto
it, and when both entries have a NON-EMPTY `err` sequence it replaces the
overlaid `err` with the concatenation of the current errors followed by
the other errors; with an empty `err` sequence on either side, `err` is
plainly overlaid like every other key (the other value when present,
otherwise the current one). -/
theorem c5_merge_amended :
    (∀ (self other : Meta) (o : Value),
      other.get = .ok o → o.truthy = false →
      self.merge other = .ok (self, .null))
    ∧ (∀ (self other m1 : Meta) (d od : List (PKey × Value)) (es os : List Value),
      other.get = .ok (.dict od) → (Value.dict od).truthy = true →
      self.create = .ok (m1, .dict d) →
      errSeq d = some es → errSeq od = some os →
      (od.map Prod.fst).Nodup →
      self.merge other
          = .ok (⟨setEntryGo m1.tree (self.path ++ [""])
              (.dict (mergedEntry d od es os)), self.path⟩,
            .dict (mergedEntry d od es os))
        ∧ (es ≠ [] → os ≠ [] →
            lookupPK (mergedEntry d od es os) (.s "err") = some (.list (es ++ os)))
        ∧ (∀ k, k ≠ .s "err" →
            lookupPK (mergedEntry d od es os) k
              = match lookupPK od k with
                | some v => some v
                | none => lookupPK d k)) := by
  constructor
  · intro self other o ho hot
    unfold Meta.merge
    rw [ho]
    simp [bind, Except.bind, hot, pure, Except.pure]
  · intro self other m1 d od es os ho hot hc hde hoe hnd
    have hbase : ∀ key, lookupPK (od.foldl (fun acc kv => setPK acc kv.1 kv.2) d) key
        = match lookupPK od key with
          | some v => some v
          | none => lookupPK d key := fun key => lookupPK_update od d key hnd
    have hmain : self.merge other
        = .ok (⟨setEntryGo m1.tree (self.path ++ [""])
            (.dict (mergedEntry d od es os)), self.path⟩,
          .dict (mergedEntry d od es os)) := by
      unfold Meta.merge
      rw [ho]
      simp only [bind, Except.bind, hot, if_true]
      rw [hc]
      simp only [pyDictGet, pyUpdate, pure, Except.pure]
      rcases errSeq_cases d es hde with ⟨hd1, hd2⟩ | hd1
      · subst hd2
        rw [hd1]
        simp [mergedEntry, Value.truthy, pure, Except.pure]
      · rw [hd1]
        rcases errSeq_cases od os hoe with ⟨ho1, ho2⟩ | ho1
        · subst ho2
          rw [ho1]
          simp [mergedEntry, Value.truthy, pure, Except.pure]
        · rw [ho1]
          by_cases hes : es.isEmpty
          · have : es = [] := by cases es with | nil => rfl | cons a l => simp at hes
            subst this
            simp [mergedEntry, Value.truthy, pure, Except.pure]
          · by_cases hos : os.isEmpty
            · have : os = [] := by
                cases os with | nil => rfl | cons a l => simp at hos
              subst this
              simp [mergedEntry, Value.truthy, pure, Except.pure, hes]
            · simp [mergedEntry, Value.truthy, pure, Except.pure, hes, hos,
                pyAdd, bind, Except.bind]
    refine ⟨hmain, ?_, ?_⟩
    · intro hesne hosne
      unfold mergedEntry
      have hes : es.isEmpty = false := by
        cases es with | nil => exact absurd rfl hesne | cons a l => rfl
      have hos : os.isEmpty = false := by
        cases os with | nil => exact absurd rfl hosne | cons a l => rfl
      simp only [hes, hos, Bool.or_self, Bool.false_or, if_false]
      exact lookupPK_setPK_self _ (.s "err") (.list (es ++ os))
    · intro k hk
      unfold mergedEntry
      by_cases hor : (es.isEmpty || os.isEmpty)
      · simp only [hor, if_true]
        exact hbase k
      · simp only [hor, Bool.false_eq_true, if_false]
        rw [lookupPK_setPK_ne _ (.s "err") k _ hk]
        exact hbase k

/-- Claim C5 witness for the amended statement: merging a source entry
with `err = ["a"]` into a destination with `err = ["b"]` yields
`err = ["b", "a"]`; the source values overwrite other keys. -/
theorem c5_merge_amended_witness :
    Meta.merge ⟨.dict [(.s "", .dict [(.s "err", .list [.str "b"])])], []⟩
        ⟨.dict [(.s "", .dict [(.s "err", .list [.str "a"])])], []⟩
      = .ok (⟨.dict [(.s "", .dict [(.s "err",
            .list [.str "b", .str "a"])])], []⟩,
          .dict [(.s "err", .list [.str "b", .str "a"])]) := by
  have h := (c5_merge_amended.2
    ⟨.dict [(.s "", .dict [(.s "err", .list [.str "b"])])], []⟩
    ⟨.dict [(.s "", .dict [(.s "err", .list [.str "a"])])], []⟩
    ⟨.dict [(.s "", .dict [(.s "err", .list [.str "b"])])], []⟩
    [(.s "err", .list [.str "b"])] [(.s "err", .list [.str "a"])]
    [.str "b"] [.str "a"]
    rfl rfl rfl rfl rfl (by simp)).1
  exact h
